import Mathlib

/-!
Verification of the regex-gen exploder: a tree of pattern nodes
(`Value`, `CharacterRange`, `CharacterSet`, `Product`, `Sum`, `Repeated`),
each supporting `choices()` (cardinality), `__getitem__` (indexing into the
enumeration of concrete outputs) and `regex()` (rendering to pattern text).

The embedding below translates `exploder.py` directly.  Python integers are
`Int`; Python `%` and `//` are floored division, i.e. `Int.fmod` / `Int.fdiv`.
Python exceptions become an explicit `Except Err` result.
-/

namespace RegexGen

/-- The exception kinds the Python code can raise on the modelled paths:
`IndexError` from `_range_check` (and from list/str indexing out of bounds),
the `Exception(NotImplemented)` raised by `CharacterSet.choices` on a negated
set, `ValueError` from `chr` on an out-of-range code point, and
`ZeroDivisionError` from `%` / `//` with a zero divisor. -/
inductive Err where
  | indexOutOfRange
  | unsupported
  | valueError
  | zeroDivision
  deriving DecidableEq, Repr

/-- Computation rule for `bind` on a successful `Except`. -/
@[simp] theorem ok_bind {ε α β : Type} (a : α) (f : α → Except ε β) :
    (Except.ok a : Except ε α) >>= f = f a := rfl

/-- Computation rule for `bind` on a failed `Except`. -/
@[simp] theorem error_bind {ε α β : Type} (e : ε) (f : α → Except ε β) :
    (Except.error e : Except ε α) >>= f = Except.error e := rfl

/-- Python `s * n` on strings: `n` copies of `s` when `n > 0`, else `""`. -/
def pyStrMul (s : String) (n : Int) : String :=
  String.join (List.replicate n.toNat s)

/-- Python `chr(n)`: raises `ValueError` outside `[0, 0x110000)`.
`Char.ofNat` agrees with `chr` on every non-surrogate code point; no
surrogate code point is exercised by any statement below. -/
def pychr (n : Int) : Except Err String :=
  if 0 ≤ n ∧ n < 1114112 then .ok (String.mk [Char.ofNat n.toNat])
  else .error .valueError

/-- Python string subscription `s[i]`: non-negative indices from the front,
negative indices wrap from the back, `IndexError` outside `[-len, len)`. -/
def pyStrGet (s : String) (i : Int) : Except Err String :=
  if 0 ≤ i ∧ i < (s.length : Int) then
    .ok (String.mk [s.data.getD i.toNat 'a'])
  else if -(s.length : Int) ≤ i ∧ i < 0 then
    .ok (String.mk [s.data.getD (i + (s.length : Int)).toNat 'a'])
  else .error .indexOutOfRange

/-- `FLAG_max_repeat`: process-wide cap for unbounded repetition, default 5.
All operations are parameterised over this value `cap`. -/
def defaultCap : Int := 5

/-- The `Repeat` dataclass: `min: int`, `max: int` where `max` may be `None`
(no validation is performed by the constructor or the presets). -/
structure Repeat where
  min : Int
  max : Option Int
  deriving DecidableEq, Repr

/-- `Repeat.any()`: zero or more. -/
def Repeat.any : Repeat := ⟨0, none⟩

/-- `Repeat.more()`: one or more. -/
def Repeat.more : Repeat := ⟨1, none⟩

/-- `Repeat.upto(x)`: zero to `x` matches. -/
def Repeat.upto (x : Int) : Repeat := ⟨0, some x⟩

/-- `Repeat.atleast(x)`: `x` or more matches. -/
def Repeat.atleast (x : Int) : Repeat := ⟨x, none⟩

/-- `Repeat.between(x, y)`. -/
def Repeat.between (x y : Int) : Repeat := ⟨x, some y⟩

/-- `Repeated.__count`: `max` (or `max(FLAG_max_repeat, min)` when `max` is
`None`) minus `min`, plus one (inclusive upper bound). -/
def Repeat.count (cap : Int) (r : Repeat) : Int :=
  (match r.max with
   | none => Max.max cap r.min
   | some m => m) - r.min + 1

/-- The fall-through tail of `Repeat.regex` (reached when `self.max` is
falsy, i.e. `None` or `0`). -/
def Repeat.unboundedStr (r : Repeat) : String :=
  if r.min > 1 then "\x7b" ++ toString r.min ++ ",\x7d"
  else if r.min = 1 then "+"
  else "*"

/-- `Repeat.regex`: note the Python guard is `if self.max:` — truthiness — so
`max = 0` falls through to the unbounded branches exactly like `max = None`. -/
def Repeat.regexStr (r : Repeat) : String :=
  match r.max with
  | some m =>
      if m ≠ 0 then
        if m = r.min then "\x7b" ++ toString r.min ++ "\x7d"
        else "\x7b" ++ toString r.min ++ "," ++ toString m ++ "\x7d"
      else r.unboundedStr
  | none => r.unboundedStr

/-- The closed algebra of pattern nodes of `exploder.py`.
`Value` carries its text; `CharacterRange` carries the `ord` values stored by
the constructor; `CharacterSet` carries the processed `self.values` string and
the `negated` flag; `Product` and `Sum` carry their ordered children;
`Repeated` carries one child and a `Repeat`. -/
inductive Regex where
  | value (s : String)
  | charRange (startOrd endOrd : Nat)
  | charSet (values : String) (negated : Bool)
  | product (vs : List Regex)
  | sum (vs : List Regex)
  | repeated (v : Regex) (r : Repeat)
  deriving Repr

mutual

/-- `choices()` of each node: `Value` 1; `CharacterRange` end−start+1
(inclusive); `CharacterSet` the length of `self.values`, raising on a negated
set; `Product` the product (via `reduce(mul, ws, 1)`, a left fold);
`Sum` the sum; `Repeated` child choices times `__count`. -/
def Regex.choices (cap : Int) : Regex → Except Err Int
  | .value _ => .ok 1
  | .charRange s e => .ok ((e : Int) - (s : Int) + 1)
  | .charSet vs negated =>
      if negated then .error .unsupported else .ok (vs.length : Int)
  | .product vs => do
      let ws ← Regex.choicesList cap vs
      .ok (ws.foldl (fun x y => x * y) 1)
  | .sum vs => do
      let ws ← Regex.choicesList cap vs
      .ok (ws.foldl (fun x y => x + y) 0)
  | .repeated v r => do
      let c ← Regex.choices cap v
      .ok (c * r.count cap)

/-- The `__choices` list of a `Product` / `Sum`: each child's `choices()` in
child order (errors propagate from the first failing child). -/
def Regex.choicesList (cap : Int) : List Regex → Except Err (List Int)
  | [] => .ok []
  | v :: vs => do
      let w ← Regex.choices cap v
      let ws ← Regex.choicesList cap vs
      .ok (w :: ws)

end

/-- The mandatory-repeat loop of `Repeated.__getitem__`: `min` iterations of
`option = index % choices; index //= choices`, returning the peeled options in
order together with the remaining index.  A zero divisor raises
`ZeroDivisionError` at the first division, as in Python. -/
def mandatoryDigits (c : Int) : Nat → Int → Except Err (List Int × Int)
  | 0, index => .ok ([], index)
  | n + 1, index =>
      if c = 0 then .error .zeroDivision
      else do
        let (ds, rem) ← mandatoryDigits c n (index.fdiv c)
        .ok ((index.fmod c) :: ds, rem)

/-- Termination measure for the `while index > 0` loop: floored division by a
divisor other than `0` and `1` strictly shrinks a positive index (for a
negative divisor the quotient is already nonpositive). -/
theorem fdiv_toNat_lt (i c : Int) (h : 0 < i) (hc0 : c ≠ 0) (hc1 : c ≠ 1) :
    (i.fdiv c).toNat < i.toNat := by
  rcases lt_trichotomy c 0 with hneg | hz | hpos
  · have hle : i.fdiv c ≤ 0 := Int.fdiv_nonpos (le_of_lt h) (le_of_lt hneg)
    omega
  · exact absurd hz hc0
  · have hi : (i.toNat : Int) = i := Int.toNat_of_nonneg (le_of_lt h)
    have hcn : (c.toNat : Int) = c := Int.toNat_of_nonneg (le_of_lt hpos)
    have hed : i.fdiv c = ((i.toNat / c.toNat : Nat) : Int) := by
      rw [Int.fdiv_eq_ediv _ (le_of_lt hpos), Int.ofNat_ediv, hi, hcn]
    rw [hed]
    have h2 : 1 < c.toNat := by omega
    have := Nat.div_lt_self (show 0 < i.toNat by omega) h2
    omega

/-- The optional-repeat loop of `Repeated.__getitem__`:
`while index > 0: option = index % choices; index //= choices`.
For `c = 0` Python raises `ZeroDivisionError`; `c = 1` would loop forever in
Python but is unreachable (the calling branch is guarded by `choices != 1`),
so it is mapped to an error. -/
def peelDigits (c : Int) (index : Int) : Except Err (List Int) :=
  if h : 0 < index then
    if hc : c = 0 then .error .zeroDivision
    else if hc1 : c = 1 then .error .zeroDivision
    else do
      let ds ← peelDigits c (index.fdiv c)
      .ok ((index.fmod c) :: ds)
  else .ok []
  termination_by index.toNat
  decreasing_by
    exact fdiv_toNat_lt index c h hc hc1

mutual

/-- `__getitem__` of each node.  Every variant begins with `_range_check`,
i.e. `index >= self.choices()` raises `IndexError` (the check consults
`choices()`, so a negated `CharacterSet` raises its own error first; negative
indices are NOT rejected).  `Value` returns its text; `CharacterRange`
returns `chr(start + index)`; `CharacterSet` subscripts `self.values`;
`Product` runs the mixed-radix loop over its children; `Sum` subtracts child
weights until the index falls in a child's block; `Repeated` special-cases a
child with exactly one choice and otherwise peels `min` mandatory digits then
optional digits while the remainder is positive. -/
def Regex.getitem (cap : Int) : Regex → Int → Except Err String
  | .value s, index =>
      if index ≥ 1 then .error .indexOutOfRange
      else .ok s
  | .charRange s e, index =>
      if index ≥ (e : Int) - (s : Int) + 1 then .error .indexOutOfRange
      else pychr ((s : Int) + index)
  | .charSet vs negated, index =>
      if negated then .error .unsupported
      else if index ≥ (vs.length : Int) then .error .indexOutOfRange
      else pyStrGet vs index
  | .product vs, index => do
      let ws ← Regex.choicesList cap vs
      if index ≥ ws.foldl (fun x y => x * y) 1 then .error .indexOutOfRange
      else do
        let outs ← Regex.prodLoop cap vs index
        .ok (String.join outs)
  | .sum vs, index => do
      let ws ← Regex.choicesList cap vs
      if index ≥ ws.foldl (fun x y => x + y) 0 then .error .indexOutOfRange
      else Regex.sumLoop cap vs index
  | .repeated v r, index => do
      let c ← Regex.choices cap v
      if index ≥ c * r.count cap then .error .indexOutOfRange
      else if c = 1 then do
        let val ← Regex.getitem cap v 0
        .ok (pyStrMul val r.min ++ pyStrMul val index)
      else do
        let mr ← mandatoryDigits c r.min.toNat index
        let ods ← peelDigits c mr.2
        let outs ← Regex.repList cap v (mr.1 ++ ods)
        .ok (String.join outs)

/-- The per-child loop of `Product.__getitem__`: for each child in order,
`option = index % weight; index //= weight`, collecting `child[option]`.
A zero weight raises `ZeroDivisionError` at its division, as in Python. -/
def Regex.prodLoop (cap : Int) : List Regex → Int → Except Err (List String)
  | [], _ => .ok []
  | v :: vs, index => do
      let w ← Regex.choices cap v
      if w = 0 then .error .zeroDivision
      else do
        let s ← Regex.getitem cap v (index.fmod w)
        let rest ← Regex.prodLoop cap vs (index.fdiv w)
        .ok (s :: rest)

/-- The block-search loop of `Sum.__getitem__`:
`while index >= weights[option]: index -= weights[option]; option += 1`,
then `self.values[option][index]`.  Falling off the end of the weights list
is Python's own `IndexError` from the list subscript. -/
def Regex.sumLoop (cap : Int) : List Regex → Int → Except Err String
  | [], _ => .error .indexOutOfRange
  | v :: vs, index => do
      let w ← Regex.choices cap v
      if index ≥ w then Regex.sumLoop cap vs (index - w)
      else Regex.getitem cap v index

/-- `self.value[option]` applied to each peeled option of
`Repeated.__getitem__`, in peel order. -/
def Regex.repList (cap : Int) (v : Regex) : List Int → Except Err (List String)
  | [] => .ok []
  | d :: ds => do
      let s ← Regex.getitem cap v d
      let rest ← Regex.repList cap v ds
      .ok (s :: rest)

end

mutual

/-- `regex()` of each node: `Value` wraps its text in parentheses;
`CharacterRange` renders `[start-end]` with the stored code points (always
valid, since the constructor received actual characters); `CharacterSet`
renders `[...]` with a `^` when negated; `Product` joins child renderings;
`Sum` joins them with `|`; `Repeated` appends the `Repeat`'s encoding to the
child's rendering. -/
def Regex.regexStr : Regex → String
  | .value s => "(" ++ s ++ ")"
  | .charRange s e =>
      "[" ++ String.mk [Char.ofNat s] ++ "-" ++ String.mk [Char.ofNat e] ++ "]"
  | .charSet vs negated => "[" ++ (if negated then "^" else "") ++ vs ++ "]"
  | .product vs => "(" ++ String.join (Regex.regexStrList vs) ++ ")"
  | .sum vs => "(" ++ String.intercalate "|" (Regex.regexStrList vs) ++ ")"
  | .repeated v r => Regex.regexStr v ++ r.regexStr

/-- Child renderings of a `Product` / `Sum`, in order. -/
def Regex.regexStrList : List Regex → List String
  | [] => []
  | v :: vs => Regex.regexStr v :: Regex.regexStrList vs

end

/-- `a * n` for an integer `n`: `RegexType.__mul__` builds
`Repeated(a, Repeat(n, n))`, but `Value.__mul__` overrides it and folds the
literal to `Value(str(self) * n)` instead. -/
def Regex.mulInt (a : Regex) (n : Int) : Regex :=
  match a with
  | .value s => .value (pyStrMul s n)
  | _ => .repeated a (Repeat.mk n (some n))

/-- The spec's effective maximum for cardinality/indexing: `max` when present,
`max(Cap, min)` when absent. -/
def specEffectiveMax (cap : Int) (r : Repeat) : Int :=
  match r.max with
  | some m => m
  | none => Max.max cap r.min

/-- The unbounded-spec branch of the amended rendering claim: `*` for
`min = 0`, `+` for `min = 1`, otherwise `\x7bmin,\x7d`. -/
def specUnbounded (min : Int) : String :=
  if min = 0 then "*"
  else if min = 1 then "+"
  else "\x7b" ++ toString min ++ ",\x7d"

/-- The RepeatSpec textual encoding as amended: a present, nonzero `max`
renders `\x7bmin\x7d` when equal to `min` and `\x7bmin,max\x7d` otherwise; an
absent — or zero, since the code tests truthiness — `max` renders the
unbounded forms. -/
def specRepeatRender (r : Repeat) : String :=
  match r.max with
  | some m =>
      if m = 0 then specUnbounded r.min
      else if m = r.min then "\x7b" ++ toString r.min ++ "\x7d"
      else "\x7b" ++ toString r.min ++ "," ++ toString m ++ "\x7d"
  | none => specUnbounded r.min

/-- The options `Repeated.__getitem__` peels from `index` in the general
branch, in peel order: the mandatory digits then the optional ones. -/
def Regex.repeatedOptions (cap : Int) (v : Regex) (r : Repeat) (index : Int) :
    Except Err (List Int) := do
  let c ← Regex.choices cap v
  let mr ← mandatoryDigits c r.min.toNat index
  let ods ← peelDigits c mr.2
  .ok (mr.1 ++ ods)

/-- The digit sequence claimed by the spec for the general `Repeated` case:
exactly `min` mandatory base-`c` digits of `i` (the `k`-th being
`i / c^k mod c`, least significant first), then the little-endian base-`c`
digits of the remaining value `i / c^min`, one per iteration while it is
nonzero (`Nat.digits` is exactly that digit list, stopping at zero). -/
def specDigits (c : Int) (min : Nat) (i : Int) : List Int :=
  ((List.range min).map (fun k => ((i.toNat / c.toNat ^ k % c.toNat : Nat) : Int))) ++
    (List.map (fun d : Nat => (d : Int)) (Nat.digits c.toNat (i.toNat / c.toNat ^ min)))

/-- Mixed-radix decomposition of an index over per-child weights, child 0
least significant: the per-child options `Product.__getitem__` selects. -/
def decode : List Int → Int → List Int
  | [], _ => []
  | w :: ws, i => i.fmod w :: decode ws (i.fdiv w)

/-- Recomposition of per-child options into an index (inverse of `decode`). -/
def encode : List Int → List Int → Int
  | [], _ => 0
  | _ :: _, [] => 0
  | w :: ws, d :: ds => d + w * encode ws ds

/-- The product of the per-child weights, as `Product.choices` folds it. -/
def prodW (ws : List Int) : Int :=
  ws.foldl (fun x y => x * y) 1

/-- The sum of the per-child weights, as `Sum.choices` folds it. -/
def sumW (ws : List Int) : Int :=
  ws.foldl (fun x y => x + y) 0

/-- `child.at(option)` for each (child, option) pair in order, collecting the
renderings (the body of the `Product.__getitem__` loop once the options are
fixed). -/
def childOutputs (cap : Int) : List (Regex × Int) → Except Err (List String)
  | [] => .ok []
  | p :: ps => do
      let s ← Regex.getitem cap p.1 p.2
      let rest ← childOutputs cap ps
      .ok (s :: rest)

/-- The enumerator's view of a node: `at(0), at(1), …` up to (excluding)
index `n`. -/
def enumOutputs (cap : Int) (x : Regex) (n : Int) : List (Except Err String) :=
  (List.range n.toNat).map (fun k : Nat => Regex.getitem cap x (Int.ofNat k))

/-- `__count` computes child-independent repeat-count options: the spec's
`effectiveMax − min + 1`. -/
theorem count_eq_spec (cap : Int) (r : Repeat) :
    r.count cap = specEffectiveMax cap r - r.min + 1 := by
  cases h : r.max <;> simp [Repeat.count, specEffectiveMax, h]

/-- Folding `++` from an arbitrary accumulator prepends the accumulator. -/
theorem foldl_append_eq (l : List String) :
    ∀ a : String, l.foldl (fun r s => r ++ s) a = a ++ String.join l := by
  induction l with
  | nil => intro a; simp [String.join]
  | cons s l ih =>
      intro a
      show l.foldl (fun r s => r ++ s) (a ++ s) = a ++ String.join (s :: l)
      rw [ih (a ++ s)]
      have h2 : String.join (s :: l) = ("" ++ s) ++ String.join l := by
        show l.foldl (fun r s => r ++ s) ("" ++ s) = ("" ++ s) ++ String.join l
        rw [ih ("" ++ s)]
      rw [h2]
      simp only [String.empty_append]
      rw [String.append_assoc]

/-- `String.join` distributes over list append. -/
theorem join_append (l1 l2 : List String) :
    String.join (l1 ++ l2) = String.join l1 ++ String.join l2 := by
  induction l1 with
  | nil => simp [String.join]
  | cons s l ih =>
      show (l ++ l2).foldl (fun r s => r ++ s) ("" ++ s) =
        String.join (s :: l) ++ String.join l2
      rw [foldl_append_eq (l ++ l2) ("" ++ s), ih,
        show String.join (s :: l) = l.foldl (fun r s => r ++ s) ("" ++ s) from rfl,
        foldl_append_eq l ("" ++ s)]
      simp only [String.empty_append]
      rw [String.append_assoc]

/-- Python string repetition is additive in the repeat count. -/
theorem pyStrMul_add (s : String) (a b : Int) (ha : 0 ≤ a) (hb : 0 ≤ b) :
    pyStrMul s a ++ pyStrMul s b = pyStrMul s (a + b) := by
  unfold pyStrMul
  rw [Int.toNat_add ha hb, List.replicate_add, join_append]

/-- C2: for every `Repeated` node, `cardinality()` equals the child's
cardinality times `effectiveMax − min + 1`, where `effectiveMax` is the
spec's `max` when present and `max(Cap, min)` when absent; with the default
cap 5, a literal under `anyCount()` has cardinality 6 and a literal under
`atleast(100)` has cardinality 1. -/
theorem repeated_cardinality_spec (cap : Int) (v : Regex) (r : Repeat) (c : Int)
    (hc : Regex.choices cap v = .ok c) :
    Regex.choices cap (.repeated v r) = .ok (c * (specEffectiveMax cap r - r.min + 1)) ∧
    Regex.choices 5 (.repeated (.value "a") Repeat.any) = .ok 6 ∧
    Regex.choices 5 (.repeated (.value "a") (Repeat.atleast 100)) = .ok 1 := by
  refine ⟨?_, ?_, ?_⟩
  · simp only [Regex.choices, hc, ok_bind, count_eq_spec]
  · simp [Regex.choices, Repeat.count, Repeat.any]
  · simp [Regex.choices, Repeat.count, Repeat.atleast]

theorem repeated_cardinality_spec_witness :
    Regex.choices 5 (.repeated (.value "x") (Repeat.between 2 4)) = .ok 3 := by
  have h := (repeated_cardinality_spec 5 (.value "x") (Repeat.between 2 4) 1
    (by simp [Regex.choices])).1
  simpa [specEffectiveMax, Repeat.between] using h

/-- C9: for every `Repeated` node whose child has exactly one output `s`,
`at(i)` returns `s` repeated `min + i` times for every `i` in `[0, count)`;
concretely `literal("a") repeated between(3,5)` has cardinality 3 and
enumerates exactly `aaa`, `aaaa`, `aaaaa` at indices 0, 1, 2 (index 3 is out
of range). -/
theorem repeated_single_child_at (cap : Int) (v : Regex) (r : Repeat) (s : String)
    (i : Int) (hc : Regex.choices cap v = .ok 1) (hv : Regex.getitem cap v 0 = .ok s)
    (hmin : 0 ≤ r.min) (hi : 0 ≤ i) (hlt : i < r.count cap) :
    Regex.getitem cap (.repeated v r) i = .ok (pyStrMul s (r.min + i)) ∧
    Regex.choices 5 (.repeated (.value "a") (Repeat.between 3 5)) = .ok 3 ∧
    enumOutputs 5 (.repeated (.value "a") (Repeat.between 3 5)) 3 =
      [.ok "aaa", .ok "aaaa", .ok "aaaaa"] ∧
    Regex.getitem 5 (.repeated (.value "a") (Repeat.between 3 5)) 3 =
      .error .indexOutOfRange := by
  refine ⟨?_, ?_, ?_, ?_⟩
  · simp only [Regex.getitem, hc, ok_bind, one_mul]
    rw [if_neg (not_le.mpr hlt), if_pos trivial, hv, ok_bind,
      pyStrMul_add s r.min i hmin hi]
  · simp [Regex.choices, Repeat.count, Repeat.between]
  · simp [enumOutputs, Regex.getitem, Regex.choices, Repeat.count, Repeat.between, pyStrMul]
    rfl
  · simp [Regex.getitem, Regex.choices, Repeat.count, Repeat.between]

/-- C10: `between(x, y)` performs no validation, so a spec with finite
`max < min` is accepted; the resulting `Repeated` node's cardinality is
`child.cardinality × (max − min + 1)`, which is zero or negative, and
`at(i)` fails with `IndexOutOfRange` for every index `i ≥ 0`. -/
theorem descending_spec_all_indices_fail (cap : Int) (v : Regex) (x y c i : Int)
    (hxy : y < x) (hc : Regex.choices cap v = .ok c) (hc0 : 0 ≤ c) (hi : 0 ≤ i) :
    Repeat.between x y = Repeat.mk x (some y) ∧
    Regex.choices cap (.repeated v (Repeat.between x y)) = .ok (c * (y - x + 1)) ∧
    c * (y - x + 1) ≤ 0 ∧
    Regex.getitem cap (.repeated v (Repeat.between x y)) i = .error .indexOutOfRange := by
  have hcount : (Repeat.between x y).count cap = y - x + 1 := by
    simp [Repeat.count, Repeat.between]
  have hnp : c * (y - x + 1) ≤ 0 := by
    have h1 := mul_le_mul_of_nonneg_left (show y - x + 1 ≤ 0 by omega) hc0
    simpa using h1
  refine ⟨rfl, ?_, hnp, ?_⟩
  · simp only [Regex.choices, hc, ok_bind, hcount]
  · simp only [Regex.getitem, hc, ok_bind, hcount]
    rw [if_pos (le_trans hnp hi)]

theorem repeated_single_child_at_witness :
    Regex.getitem 5 (.repeated (.value "a") (Repeat.between 3 5)) 1 = .ok "aaaa" := by
  have h := (repeated_single_child_at 5 (.value "a") (Repeat.between 3 5) "a" 1
    (by simp [Regex.choices]) (by simp [Regex.getitem]) (by norm_num [Repeat.between])
    (by norm_num) (by norm_num [Repeat.count, Repeat.between])).1
  rw [h]
  rfl

theorem descending_spec_all_indices_fail_witness :
    Regex.getitem 5 (.repeated (.value "a") (Repeat.between 3 1)) 0 =
      .error .indexOutOfRange :=
  (descending_spec_all_indices_fail 5 (.value "a") 3 1 1 0 (by norm_num)
    (by simp [Regex.choices]) (by norm_num) (by norm_num)).2.2.2

/-- C6 counterexample: the claim says every negative index fails with
`IndexOutOfRange`, but `Value("abc")[-1]` passes the range check (which only
tests `index >= choices()`) and returns `"abc"`, and a `CharacterSet`
subscripted at `-1` wraps around and returns its last character. -/
theorem negative_index_not_rejected :
    Regex.getitem 5 (.value "abc") (-1) = .ok "abc" ∧
    Regex.getitem 5 (.value "abc") (-1) ≠ .error .indexOutOfRange ∧
    Regex.getitem 5 (.charSet "xyz" false) (-1) = .ok "z" := by
  refine ⟨?_, ?_, ?_⟩
  · simp [Regex.getitem]
  · simp [Regex.getitem]
  · simp [Regex.getitem, pyStrGet]
    rfl

/-- C6 amended: for `Literal`, `CharacterRange` and non-negated
`CharacterSet` nodes, `at(i)` fails with `IndexOutOfRange` for every
`i ≥ cardinality()`; negative indices are not rejected by the range check
(which only tests `index ≥ cardinality`): a `Literal` returns its text for
every `i < 1`, negative included; a non-negated `CharacterSet` returns the
character at position `length + i` for every `−length ≤ i < 0` (Python tail
indexing) and fails with `IndexOutOfRange` only below `−length`; and a
`CharacterRange` whose stored end code point is below `0x110000` returns
`chr(start + i)` for every in-range `i ≥ −start`. -/
theorem leaf_range_check_upper (cap : Int) :
    (∀ (s : String) (i : Int), (1 : Int) ≤ i →
      Regex.getitem cap (.value s) i = .error .indexOutOfRange) ∧
    (∀ (st en : Nat) (i : Int), (en : Int) - (st : Int) + 1 ≤ i →
      Regex.getitem cap (.charRange st en) i = .error .indexOutOfRange) ∧
    (∀ (vs : String) (i : Int), (vs.length : Int) ≤ i →
      Regex.getitem cap (.charSet vs false) i = .error .indexOutOfRange) ∧
    (∀ (s : String) (i : Int), i < 1 → Regex.getitem cap (.value s) i = .ok s) ∧
    (∀ (vs : String) (i : Int), -(vs.length : Int) ≤ i → i < 0 →
      Regex.getitem cap (.charSet vs false) i =
        .ok (String.mk [vs.data.getD (i + (vs.length : Int)).toNat 'a'])) ∧
    (∀ (vs : String) (i : Int), i < -(vs.length : Int) →
      Regex.getitem cap (.charSet vs false) i = .error .indexOutOfRange) ∧
    (∀ (st en : Nat) (i : Int), en < 1114112 → -(st : Int) ≤ i →
      i < (en : Int) - (st : Int) + 1 →
      Regex.getitem cap (.charRange st en) i =
        .ok (String.mk [Char.ofNat ((st : Int) + i).toNat])) := by
  refine ⟨?_, ?_, ?_, ?_, ?_, ?_, ?_⟩
  · intro s i h
    simp only [Regex.getitem]
    rw [if_pos h]
  · intro st en i h
    simp only [Regex.getitem]
    rw [if_pos h]
  · intro vs i h
    simp only [Regex.getitem, Bool.false_eq_true, if_false]
    rw [if_pos h]
  · intro s i h
    simp only [Regex.getitem]
    rw [if_neg (not_le.mpr h)]
  · intro vs i hlo hneg
    simp only [Regex.getitem, Bool.false_eq_true, if_false]
    rw [if_neg (not_le.mpr (by omega : i < (vs.length : Int)))]
    unfold pyStrGet
    rw [if_neg (by omega), if_pos (by omega)]
  · intro vs i h
    simp only [Regex.getitem, Bool.false_eq_true, if_false]
    rw [if_neg (not_le.mpr (by omega : i < (vs.length : Int)))]
    unfold pyStrGet
    rw [if_neg (by omega), if_neg (by omega)]
  · intro st en i hen hlo hhi
    simp only [Regex.getitem]
    rw [if_neg (not_le.mpr hhi)]
    unfold pychr
    rw [if_pos (by omega)]

theorem leaf_range_check_upper_witness :
    Regex.getitem 5 (.value "abc") 2 = .error .indexOutOfRange ∧
    Regex.getitem 5 (.charSet "xyz" false) (-2) = .ok "y" ∧
    Regex.getitem 5 (.charSet "xyz" false) (-4) = .error .indexOutOfRange ∧
    Regex.getitem 5 (.charRange 98 122) (-1) = .ok "a" := by
  refine ⟨(leaf_range_check_upper 5).1 "abc" 2 (by norm_num), ?_, ?_, ?_⟩
  · have h := (leaf_range_check_upper 5).2.2.2.2.1 "xyz" (-2)
      (by decide) (by norm_num)
    rw [h]
    rfl
  · have h := (leaf_range_check_upper 5).2.2.2.2.2.1 "xyz" (-4) (by decide)
    exact h
  · have h := (leaf_range_check_upper 5).2.2.2.2.2.2 98 122 (-1)
      (by norm_num) (by norm_num) (by norm_num)
    rw [h]
    rfl

/-- pyStrMul of a nonpositive count is empty -/
theorem pyStrMul_nonpos (s : String) (n : Int) (h : n ≤ 0) : pyStrMul s n = "" := by
  unfold pyStrMul
  rw [show n.toNat = 0 by omega]
  rfl

/-- C7 counterexample: for a `Value` node the plain-count form is overridden
and folds the literal: `Value("a") * 2` is `Value("aa")`, whose `render()`
is `"(aa)"` while `Repeated(Value("a"), between(2,2))` renders
`"(a)\x7b2\x7d"` — so the two are not observationally equal. -/
theorem value_times_int_renders_differently :
    Regex.mulInt (.value "a") 2 = .value "aa" ∧
    (Regex.mulInt (.value "a") 2).regexStr = "(aa)" ∧
    (Regex.repeated (.value "a") (Repeat.between 2 2)).regexStr = "(a)\x7b2\x7d" ∧
    "(aa)" ≠ "(a)\x7b2\x7d" := by
  refine ⟨?_, ?_, ?_, by decide⟩
  · show Regex.value (pyStrMul "a" 2) = Regex.value "aa"
    rfl
  · simp [Regex.mulInt, Regex.regexStr]
    rfl
  · simp [Regex.regexStr, Repeat.regexStr, Repeat.between, Repeat.unboundedStr]
    rfl

/-- C7 amended: for every non-`Value` node the plain-count form builds
exactly `Repeated(a, between(n, n))`; for a `Value` node the folded literal
still agrees with `Repeated(a, between(n, n))` on `cardinality()` and on
`at(i)` for every integer `i`, only `render()` differs. -/
theorem times_int_matches_between (cap n i : Int) (a : Regex) :
    Regex.choices cap (Regex.mulInt a n) =
      Regex.choices cap (.repeated a (Repeat.between n n)) ∧
    Regex.getitem cap (Regex.mulInt a n) i =
      Regex.getitem cap (.repeated a (Repeat.between n n)) i ∧
    ((∀ s, a ≠ .value s) → Regex.mulInt a n = .repeated a (Repeat.between n n)) := by
  have hcount : (Repeat.between n n).count cap = 1 := by
    simp [Repeat.count, Repeat.between]
  rcases a with s | ⟨st, en⟩ | ⟨vs, neg⟩ | vs | vs | ⟨v, r⟩
  case value =>
    refine ⟨?_, ?_, fun h => absurd rfl (h s)⟩
    · simp only [Regex.mulInt, Regex.choices, ok_bind, hcount, mul_one]
    · simp only [Regex.mulInt, Regex.getitem, Regex.choices, ok_bind, hcount, one_mul]
      by_cases hI : (1 : Int) ≤ i
      · rw [if_pos hI, if_pos hI]
      · rw [if_neg hI, if_neg hI]
        first
        | rw [if_pos rfl]
        | rw [if_pos trivial]
        rw [if_neg (by norm_num : ¬ (0 : Int) ≥ 1), ok_bind, Repeat.between,
          pyStrMul_nonpos s i (by omega)]
        rw [String.append_empty]
  all_goals exact ⟨rfl, rfl, fun _ => rfl⟩

theorem times_int_matches_between_witness :
    (∀ s, Regex.charRange 97 122 ≠ .value s) ∧
    Regex.mulInt (.charRange 97 122) 3 =
      .repeated (.charRange 97 122) (Repeat.between 3 3) :=
  ⟨fun _ hEq => Regex.noConfusion hEq,
    (times_int_matches_between 5 3 0 (.charRange 97 122)).2.2
      (fun _ hEq => Regex.noConfusion hEq)⟩

/-- unbounded branch matches amended spec -/
theorem unbounded_render_eq (r : Repeat) (hmin : 0 ≤ r.min) :
    r.unboundedStr = specUnbounded r.min := by
  by_cases h0 : r.min = 0
  · simp [Repeat.unboundedStr, specUnbounded, h0]
  · by_cases h1 : r.min = 1
    · simp [Repeat.unboundedStr, specUnbounded, h1]
    · have hgt : r.min > 1 := by omega
      simp [Repeat.unboundedStr, specUnbounded, h0, h1, hgt]

/-- C8 counterexample: the claim says `min == max == 0` renders
`"\x7b0\x7d"`, but `Repeat.regex` tests the truthiness of `max`, so
`Repeated(Value("a"), between(0,0))` renders `"(a)*"`. -/
theorem zero_zero_renders_star :
    (Regex.repeated (.value "a") (Repeat.between 0 0)).regexStr = "(a)*" ∧
    "(a)*" ≠ "(a)\x7b0\x7d" := by
  refine ⟨?_, by decide⟩
  simp [Regex.regexStr, Repeat.regexStr, Repeat.between, Repeat.unboundedStr]

/-- C8 amended: for every `Repeated` node with `min ≥ 0`, `render()` is the
child's rendering followed by the spec encoding: `\x7bmin\x7d` when `max` is
present, nonzero and equal to `min`; `\x7bmin,max\x7d` when present, nonzero
and unequal; and the unbounded forms (`\x7bmin,\x7d` / `+` / `*` for
`min > 1` / `= 1` / `= 0`) when `max` is absent or zero. -/
theorem repeat_render_amended (r : Repeat) (v : Regex) (hmin : 0 ≤ r.min) :
    r.regexStr = specRepeatRender r ∧
    (Regex.repeated v r).regexStr = v.regexStr ++ r.regexStr := by
  constructor
  · rcases hm : r.max with _ | m
    · simp [Repeat.regexStr, specRepeatRender, hm, unbounded_render_eq r hmin]
    · by_cases hz : m = 0
      · simp [Repeat.regexStr, specRepeatRender, hm, hz, unbounded_render_eq r hmin]
      · by_cases he : m = r.min
        · simp [Repeat.regexStr, specRepeatRender, hm, hz, he, he ▸ hz]
        · simp [Repeat.regexStr, specRepeatRender, hm, hz, he]
  · simp [Regex.regexStr]

theorem repeat_render_amended_witness :
    Repeat.regexStr (Repeat.between 1 3) = "\x7b1,3\x7d" := by
  rw [(repeat_render_amended (Repeat.between 1 3) (.value "a")
    (by norm_num [Repeat.between])).1]
  rfl

/-- C3: a two-alternative child repeated `between(0,1)` has cardinality 4,
and index 3 < 4 peels the options `[1, 1]` — two child renderings, strictly
more than `max = 1` — so `at(3)` concatenates them to `"bb"`. -/
theorem repeated_output_exceeds_max :
    Regex.choices 5 (.repeated (.sum [.value "a", .value "b"]) (Repeat.between 0 1)) =
      .ok 4 ∧
    (Repeat.between 0 1).max = some 1 ∧
    Regex.repeatedOptions 5 (.sum [.value "a", .value "b"]) (Repeat.between 0 1) 3 =
      .ok [1, 1] ∧
    Regex.repList 5 (.sum [.value "a", .value "b"]) [1, 1] = .ok ["b", "b"] ∧
    Regex.getitem 5 (.repeated (.sum [.value "a", .value "b"]) (Repeat.between 0 1)) 3 =
      .ok (String.join ["b", "b"]) ∧
    1 < ([1, 1] : List Int).length := by
  refine ⟨?_, rfl, ?_, ?_, ?_, by norm_num⟩
  · simp [Regex.choices, Regex.choicesList, Repeat.count, Repeat.between]
  · simp [Regex.repeatedOptions, Regex.choices, Regex.choicesList, Repeat.between]
    simp [mandatoryDigits]
    simp [peelDigits]
  · simp [Regex.repList, Regex.getitem, Regex.choices, Regex.choicesList, Regex.sumLoop]
  · rw [Regex.getitem]
    simp [Regex.choices, Regex.choicesList, Repeat.count, Repeat.between]
    simp [mandatoryDigits]
    simp [peelDigits]
    simp [Regex.repList, Regex.getitem, Regex.choices, Regex.choicesList, Regex.sumLoop]

/-- Floored division of a nonnegative int by a positive divisor, in ℕ. -/
theorem fdiv_cast_eq (i c : Int) (hi : 0 ≤ i) (hc : 0 < c) :
    i.fdiv c = ((i.toNat / c.toNat : Nat) : Int) := by
  rw [Int.fdiv_eq_ediv _ (le_of_lt hc), Int.ofNat_ediv,
    Int.toNat_of_nonneg hi, Int.toNat_of_nonneg (le_of_lt hc)]

/-- Floored remainder of a nonnegative int by a positive divisor, in ℕ. -/
theorem fmod_cast_eq (i c : Int) (hi : 0 ≤ i) (hc : 0 < c) :
    i.fmod c = ((i.toNat % c.toNat : Nat) : Int) := by
  rw [Int.fmod_eq_emod _ (le_of_lt hc), Int.ofNat_emod,
    Int.toNat_of_nonneg hi, Int.toNat_of_nonneg (le_of_lt hc)]

/-- Closed form of the mandatory loop: the first `n` base-`c` digits of `i`
and the remainder `i / c^n`. -/
theorem mandatoryDigits_eq (c : Int) (h2 : 2 ≤ c) :
    ∀ (n : Nat) (i : Int), 0 ≤ i →
      mandatoryDigits c n i =
        .ok ((List.range n).map (fun k => ((i.toNat / c.toNat ^ k % c.toNat : Nat) : Int)),
          ((i.toNat / c.toNat ^ n : Nat) : Int)) := by
  intro n
  induction n with
  | zero =>
      intro i hi
      simp [mandatoryDigits, Int.toNat_of_nonneg hi]
  | succ n ih =>
      intro i hi
      have hc0 : c ≠ 0 := by omega
      have hfd : 0 ≤ i.fdiv c := Int.fdiv_nonneg hi (by omega)
      simp only [mandatoryDigits]
      rw [if_neg hc0, ih (i.fdiv c) hfd, ok_bind]
      rw [fmod_cast_eq i c hi (by omega), fdiv_cast_eq i c hi (by omega)]
      simp only [Int.toNat_natCast, List.range_succ_eq_map, List.map_cons, List.map_map,
        Except.ok.injEq, Prod.mk.injEq]
      rw [Nat.div_div_eq_div_mul, ← pow_succ']
      refine ⟨?_, rfl⟩
      rw [pow_zero, Nat.div_one]
      congr 1
      apply List.map_congr_left
      intro k hk
      simp only [Function.comp_apply]
      rw [Nat.div_div_eq_div_mul, ← pow_succ']

/-- The optional loop peels exactly the little-endian base-`c` digits of the
(nonnegative) remaining index, stopping at zero. -/
theorem peelDigits_eq (c : Int) (h2 : 2 ≤ c) (i : Int) (hi : 0 ≤ i) :
    peelDigits c i = .ok (List.map (fun d : Nat => (d : Int)) (Nat.digits c.toNat i.toNat)) := by
  by_cases hpos : 0 < i
  · have hrec := peelDigits_eq c h2 (i.fdiv c) (Int.fdiv_nonneg hi (by omega))
    rw [peelDigits]
    rw [dif_pos hpos, dif_neg (by omega : ¬ c = 0), dif_neg (by omega : ¬ c = 1),
      hrec, ok_bind]
    have hb : 1 < c.toNat := by omega
    have hn : 0 < i.toNat := by omega
    rw [Nat.digits_def' hb hn, List.map_cons,
      fmod_cast_eq i c hi (by omega), fdiv_cast_eq i c hi (by omega), Int.toNat_natCast]
  · have hz : i = 0 := by omega
    subst hz
    rw [peelDigits]
    simp
  termination_by i.toNat
  decreasing_by exact fdiv_toNat_lt i c hpos (by omega) (by omega)

/-- The general branch of `Repeated.__getitem__`, once the range check passes
and the child has other than one choice. -/
theorem getitem_repeated_general (cap : Int) (v : Regex) (r : Repeat) (c i : Int)
    (hc : Regex.choices cap v = .ok c) (hne : c ≠ 1) (hrange : i < c * r.count cap) :
    Regex.getitem cap (.repeated v r) i = (do
      let mr ← mandatoryDigits c r.min.toNat i
      let ods ← peelDigits c mr.2
      let outs ← Regex.repList cap v (mr.1 ++ ods)
      Except.ok (String.join outs)) := by
  simp only [Regex.getitem, hc, ok_bind]
  rw [if_neg (not_le.mpr hrange), if_neg hne]

/-- C1: for a `Repeated` node whose child cardinality `c` exceeds 1 and any
`i` in `[0, cardinality())`, `at(i)` concatenates, in peel order, the child's
output at each base-`c` digit of `i`: exactly `min` mandatory digits
(the `k`-th being `i / c^k mod c`), then one additional digit per iteration
while the remainder `i / c^min` is nonzero — the number of emitted repeats
depends on the digits of `i`, not on a value fixed at construction. -/
theorem repeated_general_digit_peeling (cap : Int) (v : Regex) (r : Repeat) (c i : Int)
    (hc : Regex.choices cap v = .ok c) (h1 : 1 < c) (hmin : 0 ≤ r.min)
    (hi : 0 ≤ i) (hlt : i < c * r.count cap) :
    Regex.getitem cap (.repeated v r) i = (do
      let outs ← Regex.repList cap v (specDigits c r.min.toNat i)
      Except.ok (String.join outs)) := by
  rw [getitem_repeated_general cap v r c i hc (by omega) hlt,
    mandatoryDigits_eq c (by omega) r.min.toNat i hi, ok_bind,
    peelDigits_eq c (by omega) _ (Int.natCast_nonneg _), ok_bind, Int.toNat_natCast]
  rfl

theorem repeated_general_digit_peeling_witness :
    Regex.getitem 5 (.repeated (.sum [.value "a", .value "b"]) (Repeat.between 1 2)) 3 =
      .ok "bb" := by
  have h := repeated_general_digit_peeling 5 (.sum [.value "a", .value "b"])
    (Repeat.between 1 2) 2 3
    (by simp [Regex.choices, Regex.choicesList]) (by norm_num)
    (by norm_num [Repeat.between]) (by norm_num)
    (by norm_num [Repeat.count, Repeat.between])
  rw [h]
  have hd : Nat.digits 2 1 = [1] := by
    rw [Nat.digits_def' (by norm_num : (1:ℕ) < 2) (by norm_num : (0:ℕ) < 1)]
    norm_num
  have hr : List.range 1 = [0] := by rfl
  simp [specDigits, hd, Repeat.between, hr, Regex.repList, Regex.getitem,
    Regex.choices, Regex.choicesList, Regex.sumLoop]
  rfl

/-- Folding multiplication from accumulator `a` multiplies `a` by the fold. -/
theorem foldl_mul_eq (ws : List Int) :
    ∀ a : Int, ws.foldl (fun x y => x * y) a = a * prodW ws := by
  induction ws with
  | nil => intro a; simp [prodW]
  | cons w ws ih =>
      intro a
      show ws.foldl (fun x y => x * y) (a * w) = a * prodW (w :: ws)
      rw [ih (a * w), show prodW (w :: ws) = ws.foldl (fun x y => x * y) (1 * w) from rfl,
        ih (1 * w)]
      ring

/-- `prodW` peels its head factor. -/
theorem prodW_cons (w : Int) (ws : List Int) : prodW (w :: ws) = w * prodW ws := by
  show ws.foldl (fun x y => x * y) (1 * w) = w * prodW ws
  rw [foldl_mul_eq]
  ring

/-- Folding addition from accumulator `a` adds `a` to the fold. -/
theorem foldl_add_eq (ws : List Int) :
    ∀ a : Int, ws.foldl (fun x y => x + y) a = a + sumW ws := by
  induction ws with
  | nil => intro a; simp [sumW]
  | cons w ws ih =>
      intro a
      show ws.foldl (fun x y => x + y) (a + w) = a + sumW (w :: ws)
      rw [ih (a + w), show sumW (w :: ws) = ws.foldl (fun x y => x + y) (0 + w) from rfl,
        ih (0 + w)]
      ring

/-- The fold in `Sum.choices` is the list sum. -/
theorem sumW_eq_sum (ws : List Int) : sumW ws = ws.sum := by
  induction ws with
  | nil => rfl
  | cons w ws ih =>
      show ws.foldl (fun x y => x + y) (0 + w) = (w :: ws).sum
      rw [foldl_add_eq ws (0 + w), List.sum_cons, ih]
      ring

/-- Inversion of a successful `__choices` list on a cons cell. -/
theorem choicesList_cons_inv (cap : Int) (v : Regex) (vs : List Regex) (ws : List Int)
    (h : Regex.choicesList cap (v :: vs) = .ok ws) :
    ∃ w ws', Regex.choices cap v = .ok w ∧ Regex.choicesList cap vs = .ok ws' ∧
      ws = w :: ws' := by
  rw [Regex.choicesList] at h
  cases hv : Regex.choices cap v with
  | error e => rw [hv, error_bind] at h; exact absurd h (by simp)
  | ok w =>
      rw [hv, ok_bind] at h
      cases hl : Regex.choicesList cap vs with
      | error e => rw [hl, error_bind] at h; exact absurd h (by simp)
      | ok ws' =>
          rw [hl, ok_bind] at h
          cases h
          exact ⟨w, ws', rfl, rfl, rfl⟩

/-- Every decoded digit is a valid option for its weight. -/
theorem decode_valid (ws : List Int) (hpos : ∀ w ∈ ws, 0 < w) (i : Int) :
    List.Forall₂ (fun d w => 0 ≤ d ∧ d < w) (decode ws i) ws := by
  induction ws generalizing i with
  | nil => simp [decode]
  | cons w ws ih =>
      have hw : 0 < w := hpos w (by simp)
      refine List.Forall₂.cons ⟨?_, ?_⟩ (ih (fun x hx => hpos x (by simp [hx])) (i.fdiv w))
      · rw [Int.fmod_eq_emod _ (le_of_lt hw)]
        exact Int.emod_nonneg i (by omega)
      · rw [Int.fmod_eq_emod _ (le_of_lt hw)]
        exact Int.emod_lt_of_pos i hw

/-- Recomposing the decoded digits recovers any in-range index. -/
theorem encode_decode (ws : List Int) (hpos : ∀ w ∈ ws, 0 < w) :
    ∀ i : Int, 0 ≤ i → i < prodW ws → encode ws (decode ws i) = i := by
  induction ws with
  | nil =>
      intro i h0 hlt
      have : prodW ([] : List Int) = 1 := rfl
      simp [encode, decode]
      omega
  | cons w ws ih =>
      intro i h0 hlt
      have hw : 0 < w := hpos w (by simp)
      have hP : 0 < prodW ws := by
        rcases Int.lt_or_le 0 (prodW ws) with h | h
        · exact h
        · exfalso
          have : w * prodW ws ≤ w * 0 :=
            mul_le_mul_of_nonneg_left h (le_of_lt hw)
          rw [prodW_cons] at hlt
          omega
      have hd0 : 0 ≤ i.fdiv w := Int.fdiv_nonneg h0 (le_of_lt hw)
      have hdlt : i.fdiv w < prodW ws := by
        rw [Int.fdiv_eq_ediv _ (le_of_lt hw)]
        rw [Int.ediv_lt_iff_lt_mul hw]
        rw [prodW_cons] at hlt
        calc i < w * prodW ws := hlt
          _ = prodW ws * w := by ring
      show i.fmod w + w * encode ws (decode ws (i.fdiv w)) = i
      rw [ih (fun x hx => hpos x (by simp [hx])) (i.fdiv w) hd0 hdlt]
      have := Int.fdiv_add_fmod i w
      omega

/-- Decoding the recomposition recovers any valid digit tuple. -/
theorem decode_encode (ds ws : List Int)
    (h : List.Forall₂ (fun d w => 0 ≤ d ∧ d < w) ds ws) :
    decode ws (encode ws ds) = ds := by
  induction h with
  | nil => rfl
  | cons hdw hrest ih =>
      rename_i d w ds' ws'
      have hw : 0 < w := by omega
      show (d + w * encode ws' ds').fmod w :: decode ws' ((d + w * encode ws' ds').fdiv w)
        = d :: ds'
      have hm : (d + w * encode ws' ds').fmod w = d := by
        rw [Int.fmod_eq_emod _ (le_of_lt hw), Int.add_mul_emod_self_left,
          Int.emod_eq_of_lt hdw.1 hdw.2]
      have hd : (d + w * encode ws' ds').fdiv w = encode ws' ds' := by
        rw [Int.fdiv_eq_ediv _ (le_of_lt hw),
          Int.add_mul_ediv_left d (encode ws' ds') (by omega : w ≠ 0),
          Int.ediv_eq_zero_of_lt hdw.1 hdw.2]
        ring
      rw [hm, hd, ih]

/-- The recomposition of a valid digit tuple lies in `[0, prodW ws)`. -/
theorem encode_bounds (ds ws : List Int)
    (h : List.Forall₂ (fun d w => 0 ≤ d ∧ d < w) ds ws) :
    0 ≤ encode ws ds ∧ encode ws ds < prodW ws := by
  induction h with
  | nil => exact ⟨le_refl 0, by show (0 : Int) < 1; norm_num⟩
  | cons hdw hrest ih =>
      rename_i d w ds' ws'
      have hw : 0 < w := by omega
      constructor
      · show 0 ≤ d + w * encode ws' ds'
        have := mul_nonneg (le_of_lt hw) ih.1
        omega
      · show d + w * encode ws' ds' < prodW (w :: ws')
        rw [prodW_cons]
        have h1 : w * encode ws' ds' ≤ w * (prodW ws' - 1) :=
          mul_le_mul_of_nonneg_left (by omega) (le_of_lt hw)
        have h2 : w * (prodW ws' - 1) = w * prodW ws' - w := by ring
        omega

/-- The `Product.__getitem__` loop selects exactly the decoded options. -/
theorem prodLoop_eq_decode (cap : Int) :
    ∀ (vs : List Regex) (ws : List Int),
      Regex.choicesList cap vs = .ok ws → (∀ w ∈ ws, 0 < w) → ∀ i : Int,
      Regex.prodLoop cap vs i = childOutputs cap (vs.zip (decode ws i)) := by
  intro vs
  induction vs with
  | nil =>
      intro ws hws _ i
      cases hws
      simp [Regex.prodLoop, childOutputs, decode]
  | cons v vs ih =>
      intro ws hws hpos i
      obtain ⟨w, ws', hv, hl, rfl⟩ := choicesList_cons_inv cap v vs ws hws
      have hw : 0 < w := hpos w (by simp)
      simp only [Regex.prodLoop, hv, ok_bind]
      rw [if_neg (by omega : ¬ w = 0)]
      rw [ih ws' hl (fun x hx => hpos x (by simp [hx])) (i.fdiv w)]
      rfl

/-- `Product.__getitem__` in terms of the mixed-radix decomposition. -/
theorem getitem_product_decode (cap : Int) (vs : List Regex) (ws : List Int)
    (hws : Regex.choicesList cap vs = .ok ws) (hpos : ∀ w ∈ ws, 0 < w)
    (i : Int) (hlt : i < prodW ws) :
    Regex.getitem cap (.product vs) i = (do
      let outs ← childOutputs cap (vs.zip (decode ws i))
      Except.ok (String.join outs)) := by
  simp only [Regex.getitem, hws, ok_bind]
  rw [if_neg (not_le.mpr (show i < ws.foldl (fun x y => x * y) 1 from hlt))]
  rw [prodLoop_eq_decode cap vs ws hws hpos i]

/-- C4 counterexample: `Product([Sum(Value "a", Value "a")])` has
cardinality 2 yet `at(0) = at(1) = "a"`, so `i ↦ at(i)` is not a bijection
onto the set of concatenations of child outputs. -/
theorem product_at_not_injective :
    Regex.choices 5 (.product [.sum [.value "a", .value "a"]]) = .ok 2 ∧
    Regex.getitem 5 (.product [.sum [.value "a", .value "a"]]) 0 = .ok "a" ∧
    Regex.getitem 5 (.product [.sum [.value "a", .value "a"]]) 1 = .ok "a" ∧
    (0 : Int) ≠ 1 := by
  refine ⟨?_, ?_, ?_, by norm_num⟩
  · simp [Regex.choices, Regex.choicesList]
  · simp [Regex.getitem, Regex.choices, Regex.choicesList, Regex.prodLoop, Regex.sumLoop]
    rfl
  · simp [Regex.getitem, Regex.choices, Regex.choicesList, Regex.prodLoop, Regex.sumLoop]
    rfl

/-- C4 amended: `Product` cardinality is the product of the child weights
(1 for the empty product, whose `at(0)` is the empty string); for `i` in
`[0, Π wk)`, `at(i)` concatenates child `k`'s output at the `k`-th
mixed-radix digit of `i` (child 0 least significant), and `i ↦ digit tuple`
is a bijection from `[0, Π wk)` onto the valid option tuples; the induced
string map need not be injective. -/
theorem product_mixed_radix (cap : Int) (vs : List Regex) (ws : List Int)
    (hws : Regex.choicesList cap vs = .ok ws) (hpos : ∀ w ∈ ws, 0 < w) :
    Regex.choices cap (.product vs) = .ok (prodW ws) ∧
    (∀ i : Int, 0 ≤ i → i < prodW ws →
      Regex.getitem cap (.product vs) i = (do
        let outs ← childOutputs cap (vs.zip (decode ws i))
        Except.ok (String.join outs))) ∧
    (∀ i j : Int, 0 ≤ i → i < prodW ws → 0 ≤ j → j < prodW ws →
      decode ws i = decode ws j → i = j) ∧
    (∀ ds : List Int, List.Forall₂ (fun d w => 0 ≤ d ∧ d < w) ds ws →
      ∃ i : Int, 0 ≤ i ∧ i < prodW ws ∧ decode ws i = ds) ∧
    Regex.getitem cap (.product []) 0 = .ok "" := by
  refine ⟨?_, ?_, ?_, ?_, ?_⟩
  · simp only [Regex.choices, hws, ok_bind]
    rfl
  · intro i h0 hlt
    exact getitem_product_decode cap vs ws hws hpos i hlt
  · intro i j hi0 hilt hj0 hjlt hdec
    rw [← encode_decode ws hpos i hi0 hilt, ← encode_decode ws hpos j hj0 hjlt, hdec]
  · intro ds hds
    refine ⟨encode ws ds, (encode_bounds ds ws hds).1, (encode_bounds ds ws hds).2, ?_⟩
    exact decode_encode ds ws hds
  · simp [Regex.getitem, Regex.choicesList, Regex.prodLoop]
    rfl

theorem product_mixed_radix_witness :
    Regex.getitem 5 (.product [.charRange 97 98, .charSet "xyz" false]) 3 = .ok "by" := by
  have h := (product_mixed_radix 5 [.charRange 97 98, .charSet "xyz" false] [2, 3]
    (by simp [Regex.choicesList, Regex.choices]; rfl) (by decide)).2.1 3 (by norm_num)
    (by decide)
  rw [h]
  simp [childOutputs, decode, Regex.getitem, pychr, pyStrGet]
  rfl

/-- Prefix sums of a nonnegative list are monotone. -/
theorem take_sum_mono (ws : List Int) (hnn : ∀ w ∈ ws, 0 ≤ w) (a b : Nat) (hab : a ≤ b) :
    (ws.take a).sum ≤ (ws.take b).sum := by
  have hsplit := List.sum_take_add_sum_drop (ws.take b) a
  rw [List.take_take, min_eq_left hab] at hsplit
  have hnn2 : 0 ≤ ((ws.take b).drop a).sum := by
    apply List.sum_nonneg
    intro x hx
    exact hnn x (List.mem_of_mem_take (List.mem_of_mem_drop hx))
  omega

/-- The `Sum.__getitem__` block search delegates to the child whose block
contains the index. -/
theorem sumLoop_block (cap : Int) :
    ∀ (vs : List Regex) (ws : List Int) (j : Nat) (i : Int)
      (hws : Regex.choicesList cap vs = .ok ws) (hnn : ∀ w ∈ ws, 0 ≤ w)
      (hj : j < vs.length) (hjw : j < ws.length),
      (ws.take j).sum ≤ i → i < (ws.take j).sum + ws[j] →
      Regex.sumLoop cap vs i = Regex.getitem cap vs[j] (i - (ws.take j).sum) := by
  intro vs
  induction vs with
  | nil =>
      intro ws j i hws hnn hj hjw hlo hhi
      exact absurd hj (by simp)
  | cons v vs ih =>
      intro ws j i hws hnn hj hjw hlo hhi
      obtain ⟨w, ws', hv, hl, rfl⟩ := choicesList_cons_inv cap v vs ws hws
      cases j with
      | zero =>
          simp only [List.take_zero, List.sum_nil] at hlo hhi
          simp only [List.getElem_cons_zero] at hhi
          simp only [Regex.sumLoop, hv, ok_bind, List.getElem_cons_zero]
          rw [if_neg (not_le.mpr (by omega : i < w))]
          simp
      | succ j =>
          simp only [List.take_succ_cons, List.sum_cons] at hlo hhi
          simp only [List.getElem_cons_succ] at hhi
          simp only [Regex.sumLoop, hv, ok_bind, List.getElem_cons_succ,
            List.take_succ_cons, List.sum_cons]
          have hw0 : 0 ≤ w := hnn w (by simp)
          have hf : 0 ≤ (ws'.take j).sum := by
            apply List.sum_nonneg
            intro x hx
            exact hnn x (by simp [List.mem_of_mem_take hx])
          rw [if_pos (by omega : i ≥ w)]
          have hj' : j < vs.length := by
            simp only [List.length_cons] at hj
            omega
          have hjw' : j < ws'.length := by
            simp only [List.length_cons] at hjw
            omega
          have := ih ws' j (i - w) hl (fun x hx => hnn x (by simp [hx]))
            hj' hjw' (by omega) (by omega)
          rw [this]
          congr 1
          omega

/-- `Sum.__getitem__` delegates block `j` wholesale. -/
theorem getitem_sum_block (cap : Int) (vs : List Regex) (ws : List Int)
    (hws : Regex.choicesList cap vs = .ok ws) (hnn : ∀ w ∈ ws, 0 ≤ w)
    (j : Nat) (i : Int) (hj : j < vs.length) (hjw : j < ws.length)
    (hlo : (ws.take j).sum ≤ i) (hhi : i < (ws.take j).sum + ws[j]) :
    Regex.getitem cap (.sum vs) i = Regex.getitem cap vs[j] (i - (ws.take j).sum) := by
  have hsum : i < ws.sum := by
    have h1 : (ws.take (j + 1)).sum = (ws.take j).sum + ws[j] :=
      List.sum_take_succ ws j hjw
    have h2 : (ws.take (j + 1)).sum ≤ (ws.take ws.length).sum :=
      take_sum_mono ws hnn (j + 1) ws.length (by omega)
    rw [List.take_length] at h2
    omega
  simp only [Regex.getitem, hws, ok_bind]
  rw [if_neg (not_le.mpr (show i < ws.foldl (fun x y => x + y) 0 from by
    rw [show ws.foldl (fun x y => x + y) 0 = sumW ws from rfl, sumW_eq_sum]
    exact hsum))]
  exact sumLoop_block cap vs ws j i hws hnn hj hjw hlo hhi

/-- The child blocks partition the index range: the block index is unique. -/
theorem block_unique (ws : List Int) (hnn : ∀ w ∈ ws, 0 ≤ w) (i : Int)
    (j j' : Nat) (hjw : j < ws.length) (hjw' : j' < ws.length)
    (hlo : (ws.take j).sum ≤ i) (hhi : i < (ws.take j).sum + ws[j])
    (hlo' : (ws.take j').sum ≤ i) (hhi' : i < (ws.take j').sum + ws[j']) :
    j = j' := by
  rcases Nat.lt_trichotomy j j' with h | h | h
  · have h1 : (ws.take (j + 1)).sum = (ws.take j).sum + ws[j] :=
      List.sum_take_succ ws j hjw
    have h2 : (ws.take (j + 1)).sum ≤ (ws.take j').sum :=
      take_sum_mono ws hnn (j + 1) j' h
    omega
  · exact h
  · have h1 : (ws.take (j' + 1)).sum = (ws.take j').sum + ws[j'] :=
      List.sum_take_succ ws j' hjw'
    have h2 : (ws.take (j' + 1)).sum ≤ (ws.take j).sum :=
      take_sum_mono ws hnn (j' + 1) j h
    omega

/-- Indices past the first block of a `Sum` shift into the remaining `Sum`. -/
theorem getitem_sum_shift (cap : Int) (v : Regex) (vs : List Regex) (w : Int)
    (ws' : List Int) (hv : Regex.choices cap v = .ok w)
    (hl : Regex.choicesList cap vs = .ok ws')
    (hws : Regex.choicesList cap (v :: vs) = .ok (w :: ws'))
    (hw0 : 0 ≤ w) (k : Int) (hk0 : 0 ≤ k) (hklt : k < ws'.sum) :
    Regex.getitem cap (.sum (v :: vs)) (w + k) = Regex.getitem cap (.sum vs) k := by
  simp only [Regex.getitem, hws, hl, ok_bind]
  rw [if_neg (not_le.mpr (show w + k < (w :: ws').foldl (fun x y => x + y) 0 from by
    rw [show (w :: ws').foldl (fun x y => x + y) 0 = sumW (w :: ws') from rfl,
      sumW_eq_sum, List.sum_cons]
    omega))]
  rw [if_neg (not_le.mpr (show k < ws'.foldl (fun x y => x + y) 0 from by
    rw [show ws'.foldl (fun x y => x + y) 0 = sumW ws' from rfl, sumW_eq_sum]
    exact hklt))]
  simp only [Regex.sumLoop, hv, ok_bind]
  rw [if_pos (by omega : w + k ≥ w)]
  congr 1
  omega

/-- The enumeration of a `Sum` is the concatenation, in child order, of the
children's enumerations. -/
theorem sum_enum_concat (cap : Int) :
    ∀ (vs : List Regex) (ws : List Int),
      Regex.choicesList cap vs = .ok ws → (∀ w ∈ ws, 0 ≤ w) →
      enumOutputs cap (.sum vs) ws.sum =
        ((vs.zip ws).map (fun p => enumOutputs cap p.1 p.2)).flatten := by
  intro vs
  induction vs with
  | nil =>
      intro ws hws hnn
      cases hws
      simp [enumOutputs]
  | cons v vs ih =>
      intro ws hws hnn
      obtain ⟨w, ws', hv, hl, rfl⟩ := choicesList_cons_inv cap v vs ws hws
      have hw0 : 0 ≤ w := hnn w (by simp)
      have hs0 : 0 ≤ ws'.sum := by
        apply List.sum_nonneg
        intro x hx
        exact hnn x (by simp [hx])
      have htn : (w + ws'.sum).toNat = w.toNat + ws'.sum.toNat :=
        Int.toNat_add hw0 hs0
      conv_lhs => rw [enumOutputs]
      rw [List.sum_cons, htn, List.range_add, List.map_append]
      simp only [List.zip_cons_cons, List.map_cons, List.flatten_cons]
      congr 1
      · rw [show enumOutputs cap v w =
          (List.range w.toNat).map (fun k : Nat => Regex.getitem cap v (Int.ofNat k))
          from rfl]
        apply List.map_congr_left
        intro k hk
        have hkw : (k : Int) < w := by
          have := List.mem_range.mp hk
          omega
        have h0 := getitem_sum_block cap (v :: vs) (w :: ws') hws hnn 0 (k : Int)
          (by simp) (by simp)
          (by simp [Int.natCast_nonneg])
          (by simpa using hkw)
        simpa using h0
      · rw [List.map_map, ← ih ws' hl (fun x hx => hnn x (by simp [hx]))]
        rw [show enumOutputs cap (.sum vs) ws'.sum =
          (List.range ws'.sum.toNat).map
            (fun k : Nat => Regex.getitem cap (.sum vs) (Int.ofNat k))
          from rfl]
        apply List.map_congr_left
        intro k hk
        have hkm := List.mem_range.mp hk
        have hklt : (k : Int) < ws'.sum := by omega
        simp only [Function.comp_apply]
        have hcast : (Int.ofNat (w.toNat + k)) = w + (k : Int) := by
          simp only [Int.ofNat_eq_natCast]
          omega
        rw [hcast]
        exact getitem_sum_shift cap v vs w ws' hv hl hws hw0 (k : Int)
          (Int.natCast_nonneg k) hklt

/-- C5: `Sum` cardinality is the sum of the child weights; `at(i)` delegates
to the unique child `j` whose block `[Σ w<j, Σ w<j + wj)` contains `i`, at
offset `i − Σ w<j`; and the full enumeration equals the concatenation, in
child order and with multiplicity, of the children's enumerations. -/
theorem sum_block_indexing (cap : Int) (vs : List Regex) (ws : List Int)
    (hws : Regex.choicesList cap vs = .ok ws) (hnn : ∀ w ∈ ws, 0 ≤ w) :
    Regex.choices cap (.sum vs) = .ok ws.sum ∧
    (∀ (j : Nat) (i : Int) (hj : j < vs.length) (hjw : j < ws.length),
      (ws.take j).sum ≤ i → i < (ws.take j).sum + ws[j] →
      Regex.getitem cap (.sum vs) i = Regex.getitem cap vs[j] (i - (ws.take j).sum)) ∧
    (∀ (i : Int) (j j' : Nat) (hjw : j < ws.length) (hjw' : j' < ws.length),
      (ws.take j).sum ≤ i → i < (ws.take j).sum + ws[j] →
      (ws.take j').sum ≤ i → i < (ws.take j').sum + ws[j'] → j = j') ∧
    enumOutputs cap (.sum vs) ws.sum =
      ((vs.zip ws).map (fun p => enumOutputs cap p.1 p.2)).flatten := by
  refine ⟨?_, ?_, ?_, ?_⟩
  · simp only [Regex.choices, hws, ok_bind]
    rw [show ws.foldl (fun x y => x + y) 0 = sumW ws from rfl, sumW_eq_sum]
  · intro j i hj hjw hlo hhi
    exact getitem_sum_block cap vs ws hws hnn j i hj hjw hlo hhi
  · intro i j j' hjw hjw' hlo hhi hlo' hhi'
    exact block_unique ws hnn i j j' hjw hjw' hlo hhi hlo' hhi'
  · exact sum_enum_concat cap vs ws hws hnn

theorem sum_block_indexing_witness :
    Regex.getitem 5 (.sum [.value "x", .charRange 97 99]) 2 = .ok "b" := by
  have h := (sum_block_indexing 5 [.value "x", .charRange 97 99] [1, 3]
    (by simp [Regex.choicesList, Regex.choices]) (by decide)).2.1 1 2
    (by norm_num) (by norm_num) (by decide) (by decide)
  rw [h]
  simp [Regex.getitem, pychr]
